import Mathlib

/-!
Verification of the Armenian word-frequency tool (the `text` program of this
repository).  The reference implementation is the C file that defines
`BITS_PER_CHARACTER`, `struct BinaryTree`, `process` and `main`
(`src/unnamed/part_000`); the simpler C variant (`src/c/text.c`) and the Go
variant (`src/go/text.go`) are used where the claims cite them.

Characters are modelled as natural numbers (Unicode code points, as `wchar_t`
holds them), the input file as a `List Nat` of characters in stream order.
The trie is modelled exactly as `struct BinaryTree`: two optional subtrees and
a counter; a NULL pointer is the `nil` constructor.  The tokenizer's cursor
(`current` in C) is identified by the bit path from the root to it, and the
word buffer `word[]` is omitted from the state: in the reference
implementation it is written but never read for output (output text is rebuilt
from the trie by `process`), so it has no observable effect.
-/

/-- `#define BITS_PER_CHARACTER 6` of the reference implementation. -/
def BITS_PER_CHARACTER : Nat := 6

/-- `#define MAX_WORD_SIZE 50` of the reference implementation. -/
def MAX_WORD_SIZE : Nat := 50

/-- The character classification of `main` (case HY): lowercase Armenian
`U+0561..U+0587` encodes as `c - 0x561`, uppercase `U+0531..U+0556` as
`c - 0x531`, anything else is not a word character (`code = -1` in C,
`none` here). -/
def charCode (c : Nat) : Option Nat :=
  if 0x561 ≤ c ∧ c ≤ 0x587 then some (c - 0x561)
  else if 0x531 ≤ c ∧ c ≤ 0x556 then some (c - 0x531)
  else none

/-- Canonical (lowercase) form of a character, as the Go variant stores it:
uppercase Armenian letters become `c + 0x30`, everything else is kept. -/
def foldChar (c : Nat) : Nat :=
  if 0x531 ≤ c ∧ c ≤ 0x556 then c + 0x30 else c

/-- A character is in the alphabet iff `charCode` classifies it. -/
def isAlpha (c : Nat) : Bool :=
  (charCode c).isSome

/-- The code of an in-alphabet character (0 as a dummy outside the alphabet). -/
def codeOf (c : Nat) : Nat :=
  (charCode c).getD 0

/-- The six bits of a character code, most significant first: the loop
`for (k = 1 << 5; k >= 1; k >>= 1) bit = code & k ? 1 : 0` of `main`. -/
def codeBits (n : Nat) : List Bool :=
  [n.testBit 5, n.testBit 4, n.testBit 3, n.testBit 2, n.testBit 1, n.testBit 0]

/-- `struct BinaryTree`: two child pointers (NULL = `nil`) and a counter. -/
inductive BinaryTree where
  | nil : BinaryTree
  | node : BinaryTree → BinaryTree → Nat → BinaryTree
deriving DecidableEq

namespace BinaryTree

/-- Child along one bit (`subtrees[bit]`); NULL has no children. -/
def sub (t : BinaryTree) (b : Bool) : BinaryTree :=
  match t with
  | .nil => .nil
  | .node z o _ => if b then o else z

/-- The counter of a node (a NULL pointer counts as 0). -/
def cnt : BinaryTree → Nat
  | .nil => 0
  | .node _ _ c => c

end BinaryTree

/-- Walking the cursor down a bit path, creating missing children with
counter 0 — the body of the `for (k ...)` loop of `main`, iterated over a
whole path. -/
def grow : BinaryTree → List Bool → BinaryTree
  | t, [] => t
  | t, b :: r =>
    if b then .node (t.sub false) (grow (t.sub true) r) t.cnt
    else .node (grow (t.sub false) r) (t.sub true) t.cnt

/-- `current->count += 1` at the node reached along a path from the root
(creating missing nodes on the way, which in `main` already exist because the
cursor grew the path). -/
def bump : BinaryTree → List Bool → BinaryTree
  | t, [] => .node (t.sub false) (t.sub true) (t.cnt + 1)
  | t, b :: r =>
    if b then .node (t.sub false) (bump (t.sub true) r) t.cnt
    else .node (bump (t.sub false) r) (t.sub true) t.cnt

/-- The counter stored at the end of a path (0 if the path leaves the tree). -/
def countAt : BinaryTree → List Bool → Nat
  | t, [] => t.cnt
  | t, b :: r => countAt (t.sub b) r

/-- Number of nodes with a positive counter. -/
def posNodes : BinaryTree → Nat
  | .nil => 0
  | .node z o c => (if 0 < c then 1 else 0) + posNodes z + posNodes o

/-- The word-buffer update at the top of `process`:
`if (index > 0 && index % 6 == 0) word[index / 6 - 1] = code + 0x561`. -/
def updW (word : List Nat) (index code : Nat) : List Nat :=
  if 0 < index ∧ index % BITS_PER_CHARACTER = 0 then word ++ [code + 0x561] else word

/-- The accompanying `code = 0` reset of `process`. -/
def updC (index code : Nat) : Nat :=
  if 0 < index ∧ index % BITS_PER_CHARACTER = 0 then 0 else code

/-- `process` of the reference implementation: depth-first traversal that
rebuilds the word text from the path and appends an `(word, count)` entry for
every node with a positive counter, subtree 0 before subtree 1. -/
def process : BinaryTree → List Nat → Nat → Nat → List (List Nat × Nat)
  | .nil, _, _, _ => []
  | .node z o c, word, index, code =>
    let w1 := updW word index code
    let c1 := updC index code
    (if 0 < c then [(w1, c)] else []) ++
      process z w1 (index + 1) (2 * c1) ++ process o w1 (index + 1) (2 * c1 + 1)

/-- `process(binary_tree, str, 0, 0)`: the unsorted collected frequency list. -/
def collect (t : BinaryTree) : List (List Nat × Nat) :=
  process t [] 0 0

/-- The mutable state of `main`'s reading loop: the trie root, the cursor
(as the bit path from the root to it), `word_index` and `unique_words`. -/
structure LoopState where
  tree : BinaryTree
  path : List Bool
  wordIndex : Nat
  uniqueWords : Nat
deriving DecidableEq

/-- One character of `main`'s reading loop.  In-alphabet characters are
skipped entirely once `word_index > MAX_WORD_SIZE - 1`, otherwise they advance
the cursor by the six code bits (creating nodes); a non-alphabet character
with a non-empty word bumps the counter at the cursor (counting a fresh
unique word if the counter was 0) and resets cursor and word. -/
def step (s : LoopState) (c : Nat) : LoopState :=
  match charCode c with
  | some code =>
    if s.wordIndex > MAX_WORD_SIZE - 1 then s
    else
      { tree := grow s.tree (s.path ++ codeBits code),
        path := s.path ++ codeBits code,
        wordIndex := s.wordIndex + 1,
        uniqueWords := s.uniqueWords }
  | none =>
    if 0 < s.wordIndex then
      { tree := bump s.tree s.path,
        path := [],
        wordIndex := 0,
        uniqueWords := s.uniqueWords + (if countAt s.tree s.path = 0 then 1 else 0) }
    else
      { tree := s.tree, path := [], wordIndex := 0, uniqueWords := s.uniqueWords }

/-- The state before reading: one root node with counter 0, cursor at the
root, empty word. -/
def initState : LoopState :=
  ⟨BinaryTree.node .nil .nil 0, [], 0, 0⟩

/-- The state after `main`'s reading loop has consumed the whole character
stream.  Note that the loop ends at end of stream without any further
end-of-word action. -/
def runLoop (cs : List Nat) : LoopState :=
  cs.foldl step initState

/-- The finished trie. -/
def finalTree (cs : List Nat) : BinaryTree :=
  (runLoop cs).tree

/-- The order `qsort` establishes with
`comparator = y->count - x->count`: non-increasing counts. -/
def countDesc (x y : List Nat × Nat) : Prop :=
  y.2 ≤ x.2

instance : DecidableRel countDesc :=
  fun x y => inferInstanceAs (Decidable (y.2 ≤ x.2))

instance : IsTotal (List Nat × Nat) countDesc :=
  ⟨fun x y => Nat.le_total y.2 x.2⟩

instance : IsTrans (List Nat × Nat) countDesc :=
  ⟨fun _ _ _ h1 h2 => Nat.le_trans h2 h1⟩

/-- Deterministic model of the `qsort` call (a sort of the collected entries
by non-increasing count). -/
def sortOcc (l : List (List Nat × Nat)) : List (List Nat × Nat) :=
  l.insertionSort countDesc

/-- The output sequence of the program on a character stream: the collected
entries of the finished trie, sorted by non-increasing count. -/
def freqList (cs : List Nat) : List (List Nat × Nat) :=
  sortOcc (collect (finalTree cs))

/-- The occurrence count the output attaches to a word: the sum of the counts
of the entries carrying that word text (0 if there is no such entry). -/
def sumFor (w : List Nat) (l : List (List Nat × Nat)) : Nat :=
  ((l.filter (fun e => e.1 == w)).map (fun e => e.2)).sum

/-- Value of six bits, most significant first — what `process` accumulates in
`code` over one character's six levels. -/
def bitsVal6 (b1 b2 b3 b4 b5 b6 : Bool) : Nat :=
  32 * b1.toNat + 16 * b2.toNat + 8 * b3.toNat + 4 * b4.toNat + 2 * b5.toNat + b6.toNat

/-- The word text `process` has materialised after walking a bit path from
the root: each completed group of six bits becomes the character
`code + 0x561`; a trailing incomplete group contributes nothing yet. -/
def decodeAll : List Bool → List Nat
  | b1 :: b2 :: b3 :: b4 :: b5 :: b6 :: rest =>
    (bitsVal6 b1 b2 b3 b4 b5 b6 + 0x561) :: decodeAll rest
  | _ => []

/-- One level of `process`'s argument evolution: the `(word, index, code)`
triple passed to a child along bit `b`. -/
def stepSt : List Nat × Nat × Nat → Bool → List Nat × Nat × Nat
  | (word, index, code), b =>
    (updW word index code, index + 1, 2 * updC index code + b.toNat)

/-- The `(word, index, code)` arguments with which `process` reaches the node
at bit path `P`, starting from `process(root, str, 0, 0)`. -/
def stateAt (P : List Bool) : List Nat × Nat × Nat :=
  P.foldl stepSt ([], 0, 0)

/-- The word text `process` emits at the node at bit path `P` (the word
buffer after the update at the top of the call). -/
def emitW (P : List Bool) : List Nat :=
  updW (stateAt P).1 (stateAt P).2.1 (stateAt P).2.2

/-- Sum, over the nodes of `t` (situated below bit path `P` from the root),
of the counters of the nodes whose emitted word text is `w`. -/
def emitSum : BinaryTree → List Bool → List Nat → Nat
  | .nil, _, _ => 0
  | .node z o c, P, w =>
    (if decodeAll P = w then c else 0) +
      emitSum z (P ++ [false]) w + emitSum o (P ++ [true]) w

/-- The bit path a canonical-case word is inserted under: six code bits per
character. -/
def encW (w : List Nat) : List Bool :=
  w.flatMap (fun c => codeBits (c - 0x561))

/-- The trie path an in-alphabet run is inserted under: the six code bits of
each of its first `MAX_WORD_SIZE` characters. -/
def runPath (r : List Nat) : List Bool :=
  ((r.take MAX_WORD_SIZE).map codeOf).flatMap codeBits

/-- Modelled from the spec (§3, §8): the case-folded form of a maximal run,
truncated to `M = MAX_WORD_SIZE` characters — the word a run is expected to
count as. -/
def specWord (r : List Nat) : List Nat :=
  (r.take MAX_WORD_SIZE).map foldChar

/-- Modelled from the spec (§4.2, Glossary): one step of splitting a stream
into maximal in-alphabet runs.  The state is the list of runs completed by a
non-alphabet character and the (possibly empty) current run. -/
def runStep (acc : List (List Nat) × List Nat) (c : Nat) : List (List Nat) × List Nat :=
  if isAlpha c then (acc.1, acc.2 ++ [c])
  else if acc.2 = [] then acc else (acc.1 ++ [acc.2], [])

/-- Splitting a stream into its delimiter-terminated maximal runs and the
trailing run still open at end of stream. -/
def splitRuns (cs : List Nat) : List (List Nat) × List Nat :=
  cs.foldl runStep ([], [])

/-- All maximal in-alphabet runs of a stream, a trailing run bounded by the
end of the stream included. -/
def maximalRuns (cs : List Nat) : List (List Nat) :=
  (splitRuns cs).1 ++ (if (splitRuns cs).2 = [] then [] else [(splitRuns cs).2])

/-- The possible output sequences of one run of the tool on a stream.  The C
standard specifies of `qsort` only that the result is a permutation of the
array ordered by the comparator (the reference's own comment: "The order of
words with the same number of occurrences is undefined"), and the Go variant
iterates a map in randomized order before a stable sort by count alone, so a
run may emit any reordering of the collected entries that is non-increasing
in count. -/
def ValidRun (cs : List Nat) (l : List (List Nat × Nat)) : Prop :=
  l.Perm (collect (finalTree cs)) ∧ l.Pairwise countDesc

instance (cs : List Nat) (l : List (List Nat × Nat)) : Decidable (ValidRun cs l) :=
  inferInstanceAs (Decidable (l.Perm (collect (finalTree cs)) ∧ l.Pairwise countDesc))

/-- Model of the Go variant's input handling: `os.Open` failure panics with
"Cannot open" before anything is read, and the output file is only created
(`os.Create`) after processing, so a missing input produces an error report
and no output.  `none` stands for an unopenable input file. -/
def goMain : Option (List Nat) → Except String (List (List Nat × Nat))
  | Option.none => Except.error "Cannot open input file"
  | Option.some cs => Except.ok (freqList cs)

/-! ### Basic facts about the trie operations -/

theorem countAt_nil : ∀ q : List Bool, countAt .nil q = 0 := by
  intro q
  induction q with
  | nil => rfl
  | cons b r ih => simpa [countAt, BinaryTree.sub] using ih

theorem countAt_grow : ∀ (p : List Bool) (t : BinaryTree) (q : List Bool),
    countAt (grow t p) q = countAt t q := by
  intro p
  induction p with
  | nil => intro t q; rfl
  | cons b r ih =>
    intro t q
    cases q with
    | nil => cases b <;> rfl
    | cons b' r' =>
      cases b <;> cases b' <;> simp [grow, countAt, BinaryTree.sub, ih]

theorem countAt_bump : ∀ (p : List Bool) (t : BinaryTree) (q : List Bool),
    countAt (bump t p) q = countAt t q + (if q = p then 1 else 0) := by
  intro p
  induction p with
  | nil =>
    intro t q
    cases q with
    | nil => simp [bump, countAt, BinaryTree.cnt]
    | cons b' r' => cases b' <;> simp [bump, countAt, BinaryTree.sub]
  | cons b r ih =>
    intro t q
    cases q with
    | nil => cases b <;> simp [bump, countAt, BinaryTree.cnt]
    | cons b' r' =>
      cases b <;> cases b' <;>
        simp [bump, countAt, BinaryTree.sub, ih]

theorem posNodes_parts (t : BinaryTree) :
    posNodes t = (if 0 < t.cnt then 1 else 0) + posNodes (t.sub false) + posNodes (t.sub true) := by
  cases t <;> simp [posNodes, BinaryTree.cnt, BinaryTree.sub]

theorem posNodes_grow : ∀ (p : List Bool) (t : BinaryTree),
    posNodes (grow t p) = posNodes t := by
  intro p
  induction p with
  | nil => intro t; rfl
  | cons b r ih =>
    intro t
    cases b <;> simp [grow, posNodes, ih, ← posNodes_parts]

theorem posNodes_bump : ∀ (p : List Bool) (t : BinaryTree),
    posNodes (bump t p) = posNodes t + (if countAt t p = 0 then 1 else 0) := by
  intro p
  induction p with
  | nil =>
    intro t
    have h := posNodes_parts t
    have hc : countAt t [] = t.cnt := rfl
    simp only [bump, posNodes, hc]
    rw [h]
    rcases Nat.eq_zero_or_pos t.cnt with h0 | h0 <;> simp [h0] <;> omega
  | cons b r ih =>
    intro t
    cases t with
    | nil =>
      cases b <;> simp [bump, posNodes, countAt, BinaryTree.sub, BinaryTree.cnt, ih, countAt_nil]
    | node z o c =>
      cases b <;> simp [bump, posNodes, countAt, BinaryTree.sub, BinaryTree.cnt, ih] <;> omega

/-! ### The six-bit character encoding and its inverse -/

theorem codeBits_val (n : Nat) (h : n < 64) :
    bitsVal6 (n.testBit 5) (n.testBit 4) (n.testBit 3) (n.testBit 2) (n.testBit 1)
      (n.testBit 0) = n := by
  revert h
  revert n
  decide

theorem codeBits_of_bitsVal6 (b1 b2 b3 b4 b5 b6 : Bool) :
    codeBits (bitsVal6 b1 b2 b3 b4 b5 b6) = [b1, b2, b3, b4, b5, b6] := by
  revert b1 b2 b3 b4 b5 b6
  decide

theorem decodeAll_cons6 (b1 b2 b3 b4 b5 b6 : Bool) (rest : List Bool) :
    decodeAll (b1 :: b2 :: b3 :: b4 :: b5 :: b6 :: rest) =
      (bitsVal6 b1 b2 b3 b4 b5 b6 + 0x561) :: decodeAll rest := rfl

theorem length_decodeAll : ∀ P : List Bool, (decodeAll P).length = P.length / 6
  | [] => rfl
  | [b1] => by
    have h : decodeAll [b1] = [] := rfl
    simp [h]
  | [b1, b2] => by
    have h : decodeAll [b1, b2] = [] := rfl
    simp [h]
  | [b1, b2, b3] => by
    have h : decodeAll [b1, b2, b3] = [] := rfl
    simp [h]
  | [b1, b2, b3, b4] => by
    have h : decodeAll [b1, b2, b3, b4] = [] := rfl
    simp [h]
  | [b1, b2, b3, b4, b5] => by
    have h : decodeAll [b1, b2, b3, b4, b5] = [] := rfl
    simp [h]
  | b1 :: b2 :: b3 :: b4 :: b5 :: b6 :: rest => by
    have ih := length_decodeAll rest
    simp [decodeAll_cons6, ih]
    omega

theorem decodeAll_codeBits_append (n : Nat) (h : n < 64) (X : List Bool) :
    decodeAll (codeBits n ++ X) = (n + 0x561) :: decodeAll X := by
  have e : decodeAll (codeBits n ++ X) =
      (bitsVal6 (n.testBit 5) (n.testBit 4) (n.testBit 3) (n.testBit 2) (n.testBit 1)
        (n.testBit 0) + 0x561) :: decodeAll X := rfl
  rw [e, codeBits_val n h]

theorem decodeAll_encW (w : List Nat) (hw : ∀ c ∈ w, 0x561 ≤ c ∧ c ≤ 0x587) :
    decodeAll (encW w) = w := by
  induction w with
  | nil => rfl
  | cons c r ih =>
    have hc := hw c (List.mem_cons_self c r)
    have hr : ∀ x ∈ r, 0x561 ≤ x ∧ x ≤ 0x587 := fun x hx => hw x (List.mem_cons_of_mem c hx)
    have hlt : c - 0x561 < 64 := by omega
    have : encW (c :: r) = codeBits (c - 0x561) ++ encW r := by simp [encW]
    rw [this, decodeAll_codeBits_append _ hlt, ih hr]
    have : c - 0x561 + 0x561 = c := by omega
    rw [this]

theorem encW_decodeAll : ∀ P : List Bool, 6 ∣ P.length → encW (decodeAll P) = P
  | [], _ => rfl
  | [_], h => by simp only [List.length_cons, List.length_nil] at h; omega
  | [_, _], h => by simp only [List.length_cons, List.length_nil] at h; omega
  | [_, _, _], h => by simp only [List.length_cons, List.length_nil] at h; omega
  | [_, _, _, _], h => by simp only [List.length_cons, List.length_nil] at h; omega
  | [_, _, _, _, _], h => by simp only [List.length_cons, List.length_nil] at h; omega
  | b1 :: b2 :: b3 :: b4 :: b5 :: b6 :: rest, h => by
    have h6 : 6 ∣ rest.length := by
      simp only [List.length_cons] at h
      omega
    have ih := encW_decodeAll rest h6
    rw [decodeAll_cons6]
    show codeBits (bitsVal6 b1 b2 b3 b4 b5 b6 + 0x561 - 0x561) ++ encW (decodeAll rest) = _
    rw [Nat.add_sub_cancel, codeBits_of_bitsVal6, ih]
    rfl

theorem decodeAll_inj (P1 P2 : List Bool) (h1 : 6 ∣ P1.length) (h2 : 6 ∣ P2.length)
    (h : decodeAll P1 = decodeAll P2) : P1 = P2 := by
  have e1 := encW_decodeAll P1 h1
  have e2 := encW_decodeAll P2 h2
  rw [← e1, ← e2, h]

theorem length_encW (w : List Nat) : (encW w).length = 6 * w.length := by
  induction w with
  | nil => rfl
  | cons c r ih => simp [encW, codeBits] at ih ⊢; omega

/-! ### The word text `process` threads along a path -/

theorem foldl_stepSt_shift : ∀ (rest : List Bool) (i1 i2 : Nat) (w1 w2 : List Nat) (c : Nat),
    i1 % 6 = i2 % 6 → 0 < i1 → 0 < i2 →
    ∃ δ c2, rest.foldl stepSt (w1, i1, c) = (w1 ++ δ, i1 + rest.length, c2) ∧
      rest.foldl stepSt (w2, i2, c) = (w2 ++ δ, i2 + rest.length, c2) := by
  intro rest
  induction rest with
  | nil =>
    intro i1 i2 w1 w2 c h h1 h2
    exact ⟨[], c, by simp, by simp⟩
  | cons b r ih =>
    intro i1 i2 w1 w2 c h h1 h2
    simp only [List.foldl_cons, stepSt]
    by_cases hm : i1 % 6 = 0
    · have hm2 : i2 % 6 = 0 := by omega
      have e1 : updW w1 i1 c = w1 ++ [c + 0x561] := by
        simp [updW, BITS_PER_CHARACTER, hm, h1]
      have e2 : updW w2 i2 c = w2 ++ [c + 0x561] := by
        simp [updW, BITS_PER_CHARACTER, hm2, h2]
      have f1 : updC i1 c = 0 := by simp [updC, BITS_PER_CHARACTER, hm, h1]
      have f2 : updC i2 c = 0 := by simp [updC, BITS_PER_CHARACTER, hm2, h2]
      obtain ⟨δ, c2, g1, g2⟩ := ih (i1 + 1) (i2 + 1) (w1 ++ [c + 0x561]) (w2 ++ [c + 0x561])
        (2 * 0 + b.toNat) (by omega) (by omega) (by omega)
      refine ⟨[c + 0x561] ++ δ, c2, ?_, ?_⟩
      · rw [e1, f1, g1]
        simp [Prod.ext_iff, List.append_assoc]
        omega
      · rw [e2, f2, g2]
        simp [Prod.ext_iff, List.append_assoc]
        omega
    · have hm2 : ¬ i2 % 6 = 0 := by omega
      have e1 : updW w1 i1 c = w1 := by simp [updW, BITS_PER_CHARACTER, hm]
      have e2 : updW w2 i2 c = w2 := by simp [updW, BITS_PER_CHARACTER, hm2]
      have f1 : updC i1 c = c := by simp [updC, BITS_PER_CHARACTER, hm]
      have f2 : updC i2 c = c := by simp [updC, BITS_PER_CHARACTER, hm2]
      obtain ⟨δ, c2, g1, g2⟩ := ih (i1 + 1) (i2 + 1) w1 w2
        (2 * c + b.toNat) (by omega) (by omega) (by omega)
      refine ⟨δ, c2, ?_, ?_⟩
      · rw [e1, f1, g1]
        simp [Prod.ext_iff]
        omega
      · rw [e2, f2, g2]
        simp [Prod.ext_iff]
        omega

theorem stateAt_six (b1 b2 b3 b4 b5 b6 : Bool) :
    stateAt [b1, b2, b3, b4, b5, b6] = ([], 6, bitsVal6 b1 b2 b3 b4 b5 b6) := by
  simp [stateAt, stepSt, updW, updC, BITS_PER_CHARACTER, bitsVal6, Prod.ext_iff]
  omega

theorem emitW_eq_decodeAll : ∀ P : List Bool, emitW P = decodeAll P
  | [] => rfl
  | [b1] => by
    have hd : decodeAll [b1] = [] := rfl
    simp [emitW, stateAt, stepSt, updW, updC, BITS_PER_CHARACTER, hd]
  | [b1, b2] => by
    have hd : decodeAll [b1, b2] = [] := rfl
    simp [emitW, stateAt, stepSt, updW, updC, BITS_PER_CHARACTER, hd]
  | [b1, b2, b3] => by
    have hd : decodeAll [b1, b2, b3] = [] := rfl
    simp [emitW, stateAt, stepSt, updW, updC, BITS_PER_CHARACTER, hd]
  | [b1, b2, b3, b4] => by
    have hd : decodeAll [b1, b2, b3, b4] = [] := rfl
    simp [emitW, stateAt, stepSt, updW, updC, BITS_PER_CHARACTER, hd]
  | [b1, b2, b3, b4, b5] => by
    have hd : decodeAll [b1, b2, b3, b4, b5] = [] := rfl
    simp [emitW, stateAt, stepSt, updW, updC, BITS_PER_CHARACTER, hd]
  | [b1, b2, b3, b4, b5, b6] => by
    rw [emitW, stateAt_six]
    have hd : decodeAll [b1, b2, b3, b4, b5, b6] = [bitsVal6 b1 b2 b3 b4 b5 b6 + 0x561] := rfl
    simp [updW, BITS_PER_CHARACTER, hd]
  | b1 :: b2 :: b3 :: b4 :: b5 :: b6 :: r :: rest2 => by
    have h0 : stateAt (b1 :: b2 :: b3 :: b4 :: b5 :: b6 :: r :: rest2) =
        rest2.foldl stepSt ([bitsVal6 b1 b2 b3 b4 b5 b6 + 0x561], 7, r.toNat) := by
      have ha : (b1 :: b2 :: b3 :: b4 :: b5 :: b6 :: r :: rest2) =
          [b1, b2, b3, b4, b5, b6] ++ (r :: rest2) := rfl
      rw [ha, stateAt, List.foldl_append, ← stateAt, stateAt_six, List.foldl_cons]
      have hb : stepSt ([], 6, bitsVal6 b1 b2 b3 b4 b5 b6) r =
          ([bitsVal6 b1 b2 b3 b4 b5 b6 + 0x561], 7, r.toNat) := by
        simp [stepSt, updW, updC, BITS_PER_CHARACTER]
      rw [hb]
    have h2 : stateAt (r :: rest2) = rest2.foldl stepSt ([], 1, r.toNat) := by
      rw [stateAt, List.foldl_cons]
      have hb : stepSt ([], 0, 0) r = ([], 1, r.toNat) := by
        simp [stepSt, updW, updC, BITS_PER_CHARACTER]
      rw [hb]
    obtain ⟨δ, c2, g1, g2⟩ := foldl_stepSt_shift rest2 7 1
      [bitsVal6 b1 b2 b3 b4 b5 b6 + 0x561] [] r.toNat (by decide) (by decide) (by decide)
    have ih := emitW_eq_decodeAll (r :: rest2)
    rw [emitW, h2, g2] at ih
    rw [emitW, h0, g1]
    have hd : decodeAll (b1 :: b2 :: b3 :: b4 :: b5 :: b6 :: r :: rest2) =
        (bitsVal6 b1 b2 b3 b4 b5 b6 + 0x561) :: decodeAll (r :: rest2) := rfl
    rw [hd, ← ih]
    by_cases hm : (1 + rest2.length) % 6 = 0
    · have hm7 : (7 + rest2.length) % 6 = 0 := by omega
      have e1 : updW (([bitsVal6 b1 b2 b3 b4 b5 b6 + 0x561] ++ δ)) (7 + rest2.length) c2 =
          ([bitsVal6 b1 b2 b3 b4 b5 b6 + 0x561] ++ δ) ++ [c2 + 0x561] := by
        simp [updW, BITS_PER_CHARACTER, hm7]
      have e2 : updW ([] ++ δ) (1 + rest2.length) c2 = ([] ++ δ) ++ [c2 + 0x561] := by
        simp [updW, BITS_PER_CHARACTER, hm]
      rw [e1, e2]
      simp
    · have hm7 : ¬ (7 + rest2.length) % 6 = 0 := by omega
      have e1 : updW (([bitsVal6 b1 b2 b3 b4 b5 b6 + 0x561] ++ δ)) (7 + rest2.length) c2 =
          [bitsVal6 b1 b2 b3 b4 b5 b6 + 0x561] ++ δ := by
        simp [updW, BITS_PER_CHARACTER, hm7]
      have e2 : updW ([] ++ δ) (1 + rest2.length) c2 = [] ++ δ := by
        simp [updW, BITS_PER_CHARACTER, hm]
      rw [e1, e2]
      simp

/-! ### Characterising the entries `process` collects -/

theorem process_node (z o : BinaryTree) (c : Nat) (word : List Nat) (index code : Nat) :
    process (.node z o c) word index code =
      (if 0 < c then [(updW word index code, c)] else []) ++
        process z (updW word index code) (index + 1) (2 * updC index code) ++
        process o (updW word index code) (index + 1) (2 * updC index code + 1) := rfl

theorem sumFor_append (w : List Nat) (l1 l2 : List (List Nat × Nat)) :
    sumFor w (l1 ++ l2) = sumFor w l1 + sumFor w l2 := by
  simp [sumFor, List.filter_append]

theorem sumFor_perm (w : List Nat) {l1 l2 : List (List Nat × Nat)} (h : l1.Perm l2) :
    sumFor w l1 = sumFor w l2 :=
  ((h.filter _).map _).sum_eq

theorem stateAt_snoc (P : List Bool) (b : Bool) :
    stateAt (P ++ [b]) = stepSt (stateAt P) b := by
  rw [stateAt, List.foldl_append, ← stateAt]
  rfl

theorem stateAt_child (P : List Bool) (b : Bool) :
    stateAt (P ++ [b]) =
      (updW (stateAt P).1 (stateAt P).2.1 (stateAt P).2.2, (stateAt P).2.1 + 1,
        2 * updC (stateAt P).2.1 (stateAt P).2.2 + b.toNat) := by
  rw [stateAt_snoc]
  rfl

theorem process_sumFor : ∀ (t : BinaryTree) (P : List Bool) (w : List Nat),
    sumFor w (process t (stateAt P).1 (stateAt P).2.1 (stateAt P).2.2) = emitSum t P w := by
  intro t
  induction t with
  | nil => intro P w; rfl
  | node z o c ihz iho =>
    intro P w
    rw [process_node, sumFor_append, sumFor_append]
    have hz := ihz (P ++ [false]) w
    have ho := iho (P ++ [true]) w
    rw [stateAt_child] at hz ho
    simp only [Bool.toNat_false, Bool.toNat_true, Nat.add_zero] at hz ho
    have hw : updW (stateAt P).1 (stateAt P).2.1 (stateAt P).2.2 = decodeAll P :=
      emitW_eq_decodeAll P
    rw [hz, ho]
    have hhead : sumFor w (if 0 < c then [(updW (stateAt P).1 (stateAt P).2.1
        (stateAt P).2.2, c)] else []) = (if decodeAll P = w then c else 0) := by
      by_cases hc : 0 < c
      · by_cases hdw : decodeAll P = w <;> simp [sumFor, hc, hdw, hw]
      · have hc0 : c = 0 := by omega
        simp [sumFor, hc0]
    rw [hhead]
    rfl

theorem mem_process : ∀ (t : BinaryTree) (P : List Bool) (e : List Nat × Nat),
    e ∈ process t (stateAt P).1 (stateAt P).2.1 (stateAt P).2.2 →
    ∃ q, e.1 = decodeAll (P ++ q) ∧ e.2 = countAt t q ∧ 0 < countAt t q := by
  intro t
  induction t with
  | nil => intro P e h; exact absurd h (List.not_mem_nil e)
  | node z o c ihz iho =>
    intro P e h
    rw [process_node] at h
    rcases List.mem_append.mp h with h12 | ho2
    · rcases List.mem_append.mp h12 with hhead | hz2
      · by_cases hc : 0 < c
        · rw [if_pos hc] at hhead
          have he : e = (updW (stateAt P).1 (stateAt P).2.1 (stateAt P).2.2, c) :=
            List.mem_singleton.mp hhead
          refine ⟨[], ?_, ?_, ?_⟩
          · rw [he, List.append_nil]
            exact emitW_eq_decodeAll P
          · rw [he]
            rfl
          · exact hc
        · rw [if_neg hc] at hhead
          exact absurd hhead (List.not_mem_nil e)
      · have harg : e ∈ process z (stateAt (P ++ [false])).1 (stateAt (P ++ [false])).2.1
            (stateAt (P ++ [false])).2.2 := by
          rw [stateAt_child]
          simpa using hz2
        obtain ⟨q, hq1, hq2, hq3⟩ := ihz (P ++ [false]) e harg
        refine ⟨false :: q, ?_, ?_, ?_⟩
        · rw [hq1]
          simp
        · exact hq2
        · exact hq3
    · have harg : e ∈ process o (stateAt (P ++ [true])).1 (stateAt (P ++ [true])).2.1
          (stateAt (P ++ [true])).2.2 := by
        rw [stateAt_child]
        simpa using ho2
      obtain ⟨q, hq1, hq2, hq3⟩ := iho (P ++ [true]) e harg
      refine ⟨true :: q, ?_, ?_, ?_⟩
      · rw [hq1]
        simp
      · exact hq2
      · exact hq3

theorem emitSum_node (z o : BinaryTree) (c : Nat) (P : List Bool) (w : List Nat) :
    emitSum (.node z o c) P w =
      (if decodeAll P = w then c else 0) +
        emitSum z (P ++ [false]) w + emitSum o (P ++ [true]) w := rfl

theorem emitSum_eq_zero : ∀ (t : BinaryTree) (P : List Bool) (w : List Nat),
    (∀ q, 0 < countAt t q → 6 ∣ (P.length + q.length)) →
    (∀ q, 6 ∣ (P.length + q.length) → decodeAll (P ++ q) ≠ w) →
    emitSum t P w = 0 := by
  intro t
  induction t with
  | nil => intro P w _ _; rfl
  | node z o c ihz iho =>
    intro P w hWF habs
    have hhead : (if decodeAll P = w then c else 0) = 0 := by
      by_cases hdw : decodeAll P = w
      · by_cases h6 : 6 ∣ P.length
        · have hne := habs [] (by simpa using h6)
          rw [List.append_nil] at hne
          exact absurd hdw hne
        · have hc0 : c = 0 := by
            by_contra hne
            have hpos : 0 < countAt (BinaryTree.node z o c) [] := by
              have hr : countAt (BinaryTree.node z o c) [] = c := rfl
              omega
            have hd := hWF [] hpos
            simp at hd
            exact h6 hd
          simp [hc0]
      · simp [hdw]
    have hWFz : ∀ q, 0 < countAt z q → 6 ∣ ((P ++ [false]).length + q.length) := by
      intro q hq
      have hpos : 0 < countAt (BinaryTree.node z o c) (false :: q) := by
        have hr : countAt (BinaryTree.node z o c) (false :: q) = countAt z q := rfl
        omega
      have hd := hWF (false :: q) hpos
      simp at hd
      simp [List.length_append]
      omega
    have hWFo : ∀ q, 0 < countAt o q → 6 ∣ ((P ++ [true]).length + q.length) := by
      intro q hq
      have hpos : 0 < countAt (BinaryTree.node z o c) (true :: q) := by
        have hr : countAt (BinaryTree.node z o c) (true :: q) = countAt o q := rfl
        omega
      have hd := hWF (true :: q) hpos
      simp at hd
      simp [List.length_append]
      omega
    have habsz : ∀ q, 6 ∣ ((P ++ [false]).length + q.length) →
        decodeAll ((P ++ [false]) ++ q) ≠ w := by
      intro q hdiv
      have hdiv2 : 6 ∣ (P.length + (false :: q).length) := by
        simp [List.length_append] at hdiv ⊢
        omega
      have hne := habs (false :: q) hdiv2
      simpa [List.append_assoc] using hne
    have habso : ∀ q, 6 ∣ ((P ++ [true]).length + q.length) →
        decodeAll ((P ++ [true]) ++ q) ≠ w := by
      intro q hdiv
      have hdiv2 : 6 ∣ (P.length + (true :: q).length) := by
        simp [List.length_append] at hdiv ⊢
        omega
      have hne := habs (true :: q) hdiv2
      simpa [List.append_assoc] using hne
    rw [emitSum_node, hhead, ihz (P ++ [false]) w hWFz habsz, iho (P ++ [true]) w hWFo habso]

theorem emitSum_eq_countAt : ∀ (q : List Bool) (t : BinaryTree) (P : List Bool) (w : List Nat),
    (∀ q2, 0 < countAt t q2 → 6 ∣ (P.length + q2.length)) →
    6 ∣ (P.length + q.length) →
    decodeAll (P ++ q) = w →
    emitSum t P w = countAt t q := by
  intro q
  induction q with
  | nil =>
    intro t P w hWF hdiv hdec
    cases t with
    | nil => rfl
    | node z o c =>
      rw [List.append_nil] at hdec
      have h6 : 6 ∣ P.length := by simpa using hdiv
      have habsb : ∀ b : Bool, ∀ q2, 6 ∣ ((P ++ [b]).length + q2.length) →
          decodeAll ((P ++ [b]) ++ q2) ≠ w := by
        intro b q2 hd2 heq
        have hlen := congrArg List.length heq
        rw [length_decodeAll] at hlen
        have hlen2 := congrArg List.length hdec
        rw [length_decodeAll] at hlen2
        simp [List.length_append] at hd2 hlen
        omega
      have hWFb : ∀ b : Bool, ∀ qb : BinaryTree, (∀ q2, 0 < countAt qb q2 →
          0 < countAt (BinaryTree.node z o c) (b :: q2)) →
          ∀ q2, 0 < countAt qb q2 → 6 ∣ ((P ++ [b]).length + q2.length) := by
        intro b qb hlift q2 hq
        have hd := hWF (b :: q2) (hlift q2 hq)
        simp at hd
        simp [List.length_append]
        omega
      have hz0 := emitSum_eq_zero z (P ++ [false]) w
        (hWFb false z (fun q2 hq => by
          have hr : countAt (BinaryTree.node z o c) (false :: q2) = countAt z q2 := rfl
          omega)) (habsb false)
      have ho0 := emitSum_eq_zero o (P ++ [true]) w
        (hWFb true o (fun q2 hq => by
          have hr : countAt (BinaryTree.node z o c) (true :: q2) = countAt o q2 := rfl
          omega)) (habsb true)
      rw [emitSum_node, hz0, ho0, if_pos hdec]
      rfl
  | cons b q' ih =>
    intro t P w hWF hdiv hdec
    cases t with
    | nil =>
      have hr : countAt BinaryTree.nil (b :: q') = 0 := countAt_nil _
      rw [hr]
      rfl
    | node z o c =>
      have hhead : (if decodeAll P = w then c else 0) = 0 := by
        by_cases hdw : decodeAll P = w
        · exfalso
          have hlen := congrArg List.length hdec
          rw [length_decodeAll] at hlen
          have hlen2 := congrArg List.length hdw
          rw [length_decodeAll] at hlen2
          simp [List.length_append] at hlen hdiv
          omega
        · simp [hdw]
      have hWFb : ∀ b2 : Bool, ∀ tb : BinaryTree,
          (∀ q2, countAt (BinaryTree.node z o c) (b2 :: q2) = countAt tb q2) →
          ∀ q2, 0 < countAt tb q2 → 6 ∣ ((P ++ [b2]).length + q2.length) := by
        intro b2 tb hlift q2 hq
        have hd := hWF (b2 :: q2) (by rw [hlift q2]; omega)
        simp at hd
        simp [List.length_append]
        omega
      have hdivb : 6 ∣ ((P ++ [b]).length + q'.length) := by
        simp at hdiv
        simp [List.length_append]
        omega
      have hdecb : decodeAll ((P ++ [b]) ++ q') = w := by
        simpa [List.append_assoc] using hdec
      have habs2 : ∀ q2, 6 ∣ ((P ++ [!b]).length + q2.length) →
          decodeAll ((P ++ [!b]) ++ q2) ≠ w := by
        intro q2 hd2 heq
        have hl1 : 6 ∣ (P ++ b :: q').length := by
          simp at hdiv
          simp [List.length_append]
          omega
        have hl2 : 6 ∣ (P ++ (!b) :: q2).length := by
          simp [List.length_append] at hd2 ⊢
          omega
        have heq2 : decodeAll (P ++ b :: q') = decodeAll (P ++ (!b) :: q2) := by
          rw [hdec]
          rw [← heq]
          simp [List.append_assoc]
        have hpaths := decodeAll_inj _ _ hl1 hl2 heq2
        have hcons : b :: q' = (!b) :: q2 := List.append_cancel_left hpaths
        have hbb : b = !b := (List.cons.injEq _ _ _ _ ▸ hcons).1
        simp at hbb
      cases b with
      | false =>
        have hz := ih z (P ++ [false]) w
          (hWFb false z (fun q2 => rfl)) hdivb hdecb
        have ho0 := emitSum_eq_zero o (P ++ [true]) w
          (hWFb true o (fun q2 => rfl)) (by simpa using habs2)
        rw [emitSum_node, hhead, hz, ho0]
        have hr : countAt (BinaryTree.node z o c) (false :: q') = countAt z q' := rfl
        rw [hr]
        omega
      | true =>
        have ho := ih o (P ++ [true]) w
          (hWFb true o (fun q2 => rfl)) hdivb hdecb
        have hz0 := emitSum_eq_zero z (P ++ [false]) w
          (hWFb false z (fun q2 => rfl)) (by simpa using habs2)
        rw [emitSum_node, hhead, ho, hz0]
        have hr : countAt (BinaryTree.node z o c) (true :: q') = countAt o q' := rfl
        rw [hr]
        omega

/-! ### The reading loop versus the run decomposition of the stream -/

theorem runLoop_snoc (cs : List Nat) (c : Nat) : runLoop (cs ++ [c]) = step (runLoop cs) c := by
  rw [runLoop, List.foldl_append, ← runLoop]
  rfl

theorem splitRuns_snoc (cs : List Nat) (c : Nat) :
    splitRuns (cs ++ [c]) = runStep (splitRuns cs) c := by
  rw [splitRuns, List.foldl_append, ← splitRuns]
  rfl

theorem codeOf_eq {c k : Nat} (h : charCode c = some k) : codeOf c = k := by
  simp [codeOf, h]

theorem charCode_lt {c k : Nat} (h : charCode c = some k) : k < 64 := by
  unfold charCode at h
  by_cases h1 : 0x561 ≤ c ∧ c ≤ 0x587
  · rw [if_pos h1] at h
    simp at h
    omega
  · rw [if_neg h1] at h
    by_cases h2 : 0x531 ≤ c ∧ c ≤ 0x556
    · rw [if_pos h2] at h
      simp at h
      omega
    · rw [if_neg h2] at h
      simp at h

theorem charCode_foldChar {c k : Nat} (h : charCode c = some k) :
    foldChar c = k + 0x561 ∧ 0x561 ≤ foldChar c ∧ foldChar c ≤ 0x587 := by
  unfold charCode at h
  unfold foldChar
  by_cases h1 : 0x561 ≤ c ∧ c ≤ 0x587
  · rw [if_pos h1] at h
    simp at h
    have h2 : ¬ (0x531 ≤ c ∧ c ≤ 0x556) := by omega
    rw [if_neg h2]
    omega
  · rw [if_neg h1] at h
    by_cases h2 : 0x531 ≤ c ∧ c ≤ 0x556
    · rw [if_pos h2] at h
      simp at h
      rw [if_pos h2]
      omega
    · rw [if_neg h2] at h
      simp at h

theorem length_flatMap_codeBits (l : List Nat) : (l.flatMap codeBits).length = 6 * l.length := by
  induction l with
  | nil => rfl
  | cons a r ih => simp [codeBits] at ih ⊢; omega

theorem length_runPath (r : List Nat) :
    (runPath r).length = 6 * min MAX_WORD_SIZE r.length := by
  rw [runPath, length_flatMap_codeBits]
  simp

theorem runPath_snoc_short {c k : Nat} (hk : charCode c = some k) (cur : List Nat)
    (h : cur.length < MAX_WORD_SIZE) : runPath (cur ++ [c]) = runPath cur ++ codeBits k := by
  have h1 : (cur ++ [c]).length ≤ MAX_WORD_SIZE := by
    simp [MAX_WORD_SIZE] at h ⊢
    omega
  have h2 : cur.length ≤ MAX_WORD_SIZE := by omega
  rw [runPath, runPath, List.take_of_length_le h1, List.take_of_length_le h2]
  simp [codeOf_eq hk]

theorem flatMap_codeOf_eq (l : List Nat) (hl : ∀ ch ∈ l, isAlpha ch = true) :
    (l.map codeOf).flatMap codeBits =
      (l.map foldChar).flatMap (fun c => codeBits (c - 0x561)) := by
  induction l with
  | nil => simp
  | cons a t ih =>
    have ha : isAlpha a = true := hl a (List.mem_cons_self a t)
    have hrest : ∀ x ∈ t, isAlpha x = true := fun x hx => hl x (List.mem_cons_of_mem a hx)
    unfold isAlpha at ha
    obtain ⟨k, hk⟩ := Option.isSome_iff_exists.mp ha
    simp only [List.map_cons, List.flatMap_cons]
    rw [ih hrest, codeOf_eq hk, (charCode_foldChar hk).1]
    simp

theorem runPath_eq_encW (r : List Nat) (h : ∀ ch ∈ r, isAlpha ch = true) :
    runPath r = encW (specWord r) := by
  rw [runPath, specWord, encW]
  exact flatMap_codeOf_eq (r.take MAX_WORD_SIZE)
    (fun ch hch => h ch (List.take_subset _ _ hch))

theorem specWord_canonical (r : List Nat) (h : ∀ ch ∈ r, isAlpha ch = true) :
    ∀ c ∈ specWord r, 0x561 ≤ c ∧ c ≤ 0x587 := by
  intro c hc
  rw [specWord] at hc
  obtain ⟨ch, hch, rfl⟩ := List.mem_map.mp hc
  have ha := h ch (List.take_subset _ _ hch)
  unfold isAlpha at ha
  obtain ⟨k, hk⟩ := Option.isSome_iff_exists.mp ha
  have hf := charCode_foldChar hk
  exact ⟨hf.2.1, hf.2.2⟩

theorem splitRuns_facts : ∀ cs : List Nat,
    (∀ r ∈ (splitRuns cs).1, r ≠ [] ∧ ∀ ch ∈ r, isAlpha ch = true) ∧
    (∀ ch ∈ (splitRuns cs).2, isAlpha ch = true) := by
  intro cs
  induction cs using List.reverseRecOn with
  | nil =>
    exact ⟨fun r hr => absurd hr (List.not_mem_nil r),
      fun ch hch => absurd hch (List.not_mem_nil ch)⟩
  | append_singleton l c ih =>
    obtain ⟨ih1, ih2⟩ := ih
    rw [splitRuns_snoc, runStep]
    by_cases ha : isAlpha c = true
    · rw [if_pos ha]
      refine ⟨ih1, ?_⟩
      intro ch hch
      rcases List.mem_append.mp hch with h1 | h2
      · exact ih2 ch h1
      · rw [List.mem_singleton] at h2
        rw [h2]
        exact ha
    · rw [if_neg ha]
      by_cases he : (splitRuns l).2 = []
      · rw [if_pos he]
        exact ⟨ih1, ih2⟩
      · rw [if_neg he]
        refine ⟨?_, fun ch hch => absurd hch (List.not_mem_nil ch)⟩
        intro r hr
        rcases List.mem_append.mp hr with h1 | h2
        · exact ih1 r h1
        · rw [List.mem_singleton] at h2
          rw [h2]
          exact ⟨he, ih2⟩

theorem loop_inv : ∀ cs : List Nat,
    (runLoop cs).path = runPath (splitRuns cs).2 ∧
    (runLoop cs).wordIndex = min (splitRuns cs).2.length MAX_WORD_SIZE ∧
    ∀ p : List Bool, countAt (runLoop cs).tree p =
      (splitRuns cs).1.countP (fun r => runPath r == p) := by
  intro cs
  induction cs using List.reverseRecOn with
  | nil =>
    refine ⟨rfl, rfl, ?_⟩
    intro p
    cases p with
    | nil => rfl
    | cons b r =>
      have hstep : countAt (BinaryTree.node .nil .nil 0) (b :: r) = countAt BinaryTree.nil r := by
        cases b <;> rfl
      show countAt (BinaryTree.node .nil .nil 0) (b :: r) = 0
      rw [hstep, countAt_nil]
  | append_singleton l c ih =>
    obtain ⟨ihp, ihw, ihc⟩ := ih
    rw [runLoop_snoc, splitRuns_snoc]
    cases hcode : charCode c with
    | some k =>
      have ha : isAlpha c = true := by simp [isAlpha, hcode]
      simp only [step, hcode, runStep, ha, if_true]
      by_cases hlong : (runLoop l).wordIndex > MAX_WORD_SIZE - 1
      · rw [if_pos hlong]
        have hlen : 50 ≤ (splitRuns l).2.length := by
          rw [ihw] at hlong
          simp [MAX_WORD_SIZE] at hlong ⊢
          omega
        refine ⟨?_, ?_, ihc⟩
        · rw [ihp, runPath, runPath,
            List.take_append_of_le_length (by simpa [MAX_WORD_SIZE] using hlen)]
        · rw [ihw]
          simp [MAX_WORD_SIZE]
          omega
      · rw [if_neg hlong]
        have hlt : (splitRuns l).2.length < 50 := by
          rw [ihw] at hlong
          simp [MAX_WORD_SIZE] at hlong
          omega
        refine ⟨?_, ?_, ?_⟩
        · show (runLoop l).path ++ codeBits k = runPath ((splitRuns l).2 ++ [c])
          rw [ihp, runPath_snoc_short hcode _ (by simpa [MAX_WORD_SIZE] using hlt)]
        · show (runLoop l).wordIndex + 1 = min ((splitRuns l).2 ++ [c]).length MAX_WORD_SIZE
          rw [ihw]
          simp [MAX_WORD_SIZE]
          omega
        · intro p
          show countAt (grow (runLoop l).tree ((runLoop l).path ++ codeBits k)) p = _
          rw [countAt_grow, ihc p]
    | none =>
      have ha : isAlpha c = false := by simp [isAlpha, hcode]
      simp only [step, hcode, runStep, ha, Bool.false_eq_true, if_false]
      by_cases hcur : (splitRuns l).2 = []
      · have hw0 : (runLoop l).wordIndex = 0 := by
          rw [ihw, hcur]
          rfl
        rw [if_pos hcur, if_neg (by omega : ¬ 0 < (runLoop l).wordIndex)]
        refine ⟨?_, ?_, ihc⟩
        · rw [hcur]
          rfl
        · rw [hcur]
          rfl
      · have hwpos : 0 < (runLoop l).wordIndex := by
          rw [ihw]
          have hp := List.length_pos.mpr hcur
          simp [MAX_WORD_SIZE]
          omega
        rw [if_neg hcur, if_pos hwpos]
        refine ⟨rfl, rfl, ?_⟩
        intro p
        show countAt (bump (runLoop l).tree (runLoop l).path) p = _
        rw [countAt_bump, ihp, ihc p, List.countP_append]
        simp only [List.countP_cons, List.countP_nil]
        by_cases hpp : p = runPath (splitRuns l).2
        · simp [hpp]
        · have hpp2 : ¬ (runPath (splitRuns l).2 = p) := fun hh => hpp hh.symm
          simp [hpp, hpp2]

theorem uniq_inv : ∀ cs : List Nat,
    (runLoop cs).uniqueWords = posNodes (runLoop cs).tree := by
  intro cs
  induction cs using List.reverseRecOn with
  | nil => rfl
  | append_singleton l c ih =>
    rw [runLoop_snoc]
    cases hcode : charCode c with
    | some k =>
      simp only [step, hcode]
      by_cases hlong : (runLoop l).wordIndex > MAX_WORD_SIZE - 1
      · rw [if_pos hlong]
        exact ih
      · rw [if_neg hlong]
        show (runLoop l).uniqueWords =
          posNodes (grow (runLoop l).tree ((runLoop l).path ++ codeBits k))
        rw [posNodes_grow]
        exact ih
    | none =>
      simp only [step, hcode]
      by_cases hw : 0 < (runLoop l).wordIndex
      · rw [if_pos hw]
        show (runLoop l).uniqueWords + (if countAt (runLoop l).tree (runLoop l).path = 0
            then 1 else 0) = posNodes (bump (runLoop l).tree (runLoop l).path)
        rw [posNodes_bump, ih]
      · rw [if_neg hw]
        exact ih

/-! ### The counting theorem: output counts versus delimiter-terminated runs -/

theorem collect_sumFor (t : BinaryTree) (w : List Nat) :
    sumFor w (collect t) = emitSum t [] w :=
  process_sumFor t [] w

theorem freq_count (cs : List Nat) (w : List Nat)
    (hw : ∀ c ∈ w, 0x561 ≤ c ∧ c ≤ 0x587) :
    sumFor w (freqList cs) = (splitRuns cs).1.countP (fun r => specWord r == w) := by
  have hperm : (freqList cs).Perm (collect (finalTree cs)) := List.perm_insertionSort countDesc _
  rw [sumFor_perm w hperm, collect_sumFor]
  obtain ⟨ihp, ihw, ihc⟩ := loop_inv cs
  obtain ⟨hdone, hcur⟩ := splitRuns_facts cs
  have hWF : ∀ q2, 0 < countAt (finalTree cs) q2 →
      6 ∣ (([] : List Bool).length + q2.length) := by
    intro q2 hq
    rw [show finalTree cs = (runLoop cs).tree from rfl, ihc q2] at hq
    obtain ⟨r, hr, hrp⟩ := List.countP_pos_iff.mp hq
    have hrq : runPath r = q2 := by simpa using hrp
    rw [← hrq, length_runPath]
    simp
  have hdiv : 6 ∣ (([] : List Bool).length + (encW w).length) := by
    rw [length_encW]
    simp
  have hdec : decodeAll (([] : List Bool) ++ encW w) = w := by
    rw [List.nil_append]
    exact decodeAll_encW w hw
  rw [emitSum_eq_countAt (encW w) (finalTree cs) [] w hWF hdiv hdec]
  rw [show finalTree cs = (runLoop cs).tree from rfl, ihc (encW w)]
  rw [List.countP_eq_length_filter, List.countP_eq_length_filter]
  congr 1
  apply List.filter_congr
  intro r hrmem
  have hr := hdone r hrmem
  rw [runPath_eq_encW r hr.2]
  by_cases hsp : specWord r = w
  · simp [hsp]
  · have hne : encW (specWord r) ≠ encW w := by
      intro he
      apply hsp
      have d1 := decodeAll_encW (specWord r) (specWord_canonical r hr.2)
      have d2 := decodeAll_encW w hw
      rw [← d1, he, d2]
    simp [hsp, hne]

theorem mem_freqList_facts (cs : List Nat) (e : List Nat × Nat) (h : e ∈ freqList cs) :
    0 < e.2 ∧ 1 ≤ e.1.length ∧ e.1.length ≤ MAX_WORD_SIZE := by
  have hperm : (freqList cs).Perm (collect (finalTree cs)) := List.perm_insertionSort countDesc _
  have hmem : e ∈ collect (finalTree cs) := hperm.mem_iff.mp h
  obtain ⟨q, hq1, hq2, hq3⟩ := mem_process (finalTree cs) [] e hmem
  have hpos : 0 < e.2 := by omega
  obtain ⟨ihp, ihw, ihc⟩ := loop_inv cs
  obtain ⟨hdone, hcur⟩ := splitRuns_facts cs
  have hc2 := hq3
  rw [show finalTree cs = (runLoop cs).tree from rfl, ihc q] at hc2
  obtain ⟨r, hrmem, hrp⟩ := List.countP_pos_iff.mp hc2
  have hrq : runPath r = q := by simpa using hrp
  have hrne := (hdone r hrmem).1
  have hlq : q.length = 6 * min MAX_WORD_SIZE r.length := by
    rw [← hrq, length_runPath]
  have hle1 : e.1.length = q.length / 6 := by
    rw [hq1, List.nil_append, length_decodeAll]
  have hrlen : 0 < r.length := List.length_pos.mpr hrne
  simp only [MAX_WORD_SIZE] at hlq ⊢
  refine ⟨hpos, ?_, ?_⟩ <;> omega

theorem length_process : ∀ (t : BinaryTree) (word : List Nat) (index code : Nat),
    (process t word index code).length = posNodes t := by
  intro t
  induction t with
  | nil => intro word index code; rfl
  | node z o c ihz iho =>
    intro word index code
    rw [process_node]
    by_cases hc : 0 < c
    · simp [hc, List.length_append, ihz, iho, posNodes]
      omega
    · simp [hc, List.length_append, ihz, iho, posNodes]

/-! ### The claims -/

/-- C1, as amended: for every input stream and every word `w` over the
canonical (lowercase Armenian) character range, the occurrence count the
output attaches to `w` equals the number of maximal in-alphabet runs that are
terminated by a non-alphabet character and whose case-folded form, truncated
to `MAX_WORD_SIZE` characters, is exactly `w`.  (A maximal run terminated by
the end of the stream is not counted — see the counterexample.) -/
theorem claim_counting_terminated_runs (cs : List Nat) (w : List Nat)
    (hw : ∀ c ∈ w, 0x561 ≤ c ∧ c ≤ 0x587) :
    sumFor w (freqList cs) = (splitRuns cs).1.countP (fun r => specWord r == w) :=
  freq_count cs w hw

/-- C1, counterexample to the claim as stated: on the input consisting of the
single letter ա (U+0561) with no following delimiter there is one maximal
in-alphabet run equal to "ա", yet the output attaches count 0 to it. -/
theorem claim_counting_counterexample :
    sumFor [0x561] (freqList [0x561]) ≠
      (maximalRuns [0x561]).countP (fun r => specWord r == [0x561]) := by decide

/-- C1, witness: on the input "ա Ա " the count of "ա" is the number (2) of
terminated runs folding to it. -/
theorem claim_counting_witness :
    (∀ c ∈ [0x561], 0x561 ≤ c ∧ c ≤ 0x587) ∧
    sumFor [0x561] (freqList [0x561, 32, 0x531, 32]) =
      (splitRuns [0x561, 32, 0x531, 32]).1.countP (fun r => specWord r == [0x561]) :=
  ⟨by decide, claim_counting_terminated_runs [0x561, 32, 0x531, 32] [0x561] (by decide)⟩

/-- C2, as amended: the tokenizer performs no end-of-word action at end of
stream; a trailing word counts only when a non-alphabet character follows, so
appending a single delimiter to the stream raises the trailing word's output
count by exactly one. -/
theorem claim_no_flush_at_eos (cs : List Nat) (h : (splitRuns cs).2 ≠ []) :
    sumFor (specWord (splitRuns cs).2) (freqList (cs ++ [0x20])) =
      sumFor (specWord (splitRuns cs).2) (freqList cs) + 1 := by
  obtain ⟨hdone, hcur⟩ := splitRuns_facts cs
  have hw := specWord_canonical (splitRuns cs).2 hcur
  rw [freq_count cs _ hw, freq_count (cs ++ [0x20]) _ hw]
  rw [splitRuns_snoc, runStep]
  rw [if_neg (by decide : ¬ isAlpha 0x20 = true), if_neg h]
  rw [List.countP_append]
  simp

/-- C2, counterexample to the claim as stated: after the input consisting of
the single letter ա (U+0561) the word buffer is non-empty at end of stream,
yet the counter at the trie cursor is not incremented and the output is
empty. -/
theorem claim_trailing_word_dropped :
    0 < (runLoop [0x561]).wordIndex ∧
    countAt (finalTree [0x561]) (runLoop [0x561]).path = 0 ∧
    freqList [0x561] = [] := by decide

/-- C2, witness: the stream "ա" ends inside a word, and appending one
delimiter yields exactly one more count for the trailing word. -/
theorem claim_no_flush_witness :
    (splitRuns [0x561]).2 ≠ [] ∧
    sumFor (specWord (splitRuns [0x561]).2) (freqList ([0x561] ++ [0x20])) =
      sumFor (specWord (splitRuns [0x561]).2) (freqList [0x561]) + 1 :=
  ⟨by decide, claim_no_flush_at_eos [0x561] (by decide)⟩

/-- C3: each of the 38 cased Armenian letters gets the same code in uppercase
and lowercase form, and therefore the same one-letter trie path. -/
theorem claim_case_fold_code :
    ∀ k, k < 38 → charCode (0x531 + k) = charCode (0x561 + k) ∧
      runPath [0x531 + k] = runPath [0x561 + k] := by decide

/-- C3, witness: instantiated at the first letter (Ա/ա). -/
theorem claim_case_fold_witness :
    0 < 38 ∧ charCode (0x531 + 0) = charCode (0x561 + 0) ∧
      runPath [0x531 + 0] = runPath [0x561 + 0] :=
  ⟨by decide, (claim_case_fold_code 0 (by decide)).1, (claim_case_fold_code 0 (by decide)).2⟩

/-- C4: decoding the code of an in-alphabet character (`code + 0x561`, as
`process` does) yields its canonical lowercase form, and consequently the
word text emitted for the full path of an in-alphabet run is exactly the
case-folded, truncated run whose insertion created that path. -/
theorem claim_decode_encode :
    (∀ c k, charCode c = some k → k + 0x561 = foldChar c) ∧
    (∀ r : List Nat, (∀ ch ∈ r, isAlpha ch = true) →
      decodeAll (runPath r) = specWord r) := by
  constructor
  · intro c k h
    exact ((charCode_foldChar h).1).symm
  · intro r hr
    rw [runPath_eq_encW r hr]
    exact decodeAll_encW _ (specWord_canonical r hr)

/-- C4, witness: instantiated at Ա (U+0531), whose decoded code is ա. -/
theorem claim_decode_encode_witness :
    charCode 0x531 = some 0 ∧ 0 + 0x561 = foldChar 0x531 ∧
      decodeAll (runPath [0x531]) = specWord [0x531] :=
  ⟨by decide, claim_decode_encode.1 0x531 0 (by decide),
    claim_decode_encode.2 [0x531] (by decide)⟩

/-- C5: the output sequence is non-increasing in occurrence count: any entry
is followed only by entries with a count no larger than its own. -/
theorem claim_sorted_output (cs : List Nat) : (freqList cs).Pairwise countDesc :=
  List.sorted_insertionSort countDesc (collect (finalTree cs))

/-- C6, counterexample to the claim as stated: on the input "ա բ " both
orders of the two count-1 entries are possible outputs of a run (`qsort`'s
tie order is unspecified and the Go variant iterates its map in randomized
order), and they differ, so two runs need not be byte-identical. -/
theorem claim_determinism_counterexample :
    ValidRun [0x561, 32, 0x562, 32] [([0x561], 1), ([0x562], 1)] ∧
    ValidRun [0x561, 32, 0x562, 32] [([0x562], 1), ([0x561], 1)] ∧
    ([([0x561], 1), ([0x562], 1)] : List (List Nat × Nat)) ≠
      [([0x562], 1), ([0x561], 1)] := by decide

/-- C6, as amended: the multiset of (word, count) entries is a deterministic
function of the input — any two possible run outputs are permutations of one
another, each sorted by non-increasing count; only the relative order of
equal-count entries may differ between runs. -/
theorem claim_outputs_perm_equal (cs : List Nat) (l1 l2 : List (List Nat × Nat))
    (h1 : ValidRun cs l1) (h2 : ValidRun cs l2) :
    l1.Perm l2 ∧ l1.Pairwise countDesc ∧ l2.Pairwise countDesc :=
  ⟨h1.1.trans h2.1.symm, h1.2, h2.2⟩

/-- C6, witness: instantiated on the one-word input "ա ". -/
theorem claim_outputs_perm_witness :
    ValidRun [0x561, 32] [([0x561], 1)] ∧
    ([([0x561], 1)] : List (List Nat × Nat)).Perm [([0x561], 1)] :=
  ⟨by decide, (claim_outputs_perm_equal [0x561, 32] _ _ (by decide) (by decide)).1⟩

/-- C7: no output entry has count 0 or a word longer than `MAX_WORD_SIZE`
characters, and the trie path of an in-alphabet run depends only on its
case-folded first `MAX_WORD_SIZE` characters, so a second occurrence of a
long word agreeing on those characters increments the same counter instead of
creating a new entry. -/
theorem claim_no_spurious (cs : List Nat) :
    (∀ e ∈ freqList cs, 0 < e.2 ∧ e.1.length ≤ MAX_WORD_SIZE) ∧
    (∀ r1 r2 : List Nat, (∀ ch ∈ r1, isAlpha ch = true) →
      (∀ ch ∈ r2, isAlpha ch = true) →
      specWord r1 = specWord r2 → runPath r1 = runPath r2) := by
  constructor
  · intro e he
    have h := mem_freqList_facts cs e he
    exact ⟨h.1, h.2.2⟩
  · intro r1 r2 h1 h2 hs
    rw [runPath_eq_encW r1 h1, runPath_eq_encW r2 h2, hs]

/-- C7, witness: the entry for "ա" in the output of "ա ", and the equal paths
of the case-variant runs "ա" and "Ա". -/
theorem claim_no_spurious_witness :
    (([0x561], 1) : List Nat × Nat) ∈ freqList [0x561, 32] ∧
    (0 < (1 : Nat) ∧ ([0x561] : List Nat).length ≤ MAX_WORD_SIZE) ∧
    (∀ ch ∈ [0x561], isAlpha ch = true) ∧ (∀ ch ∈ [0x531], isAlpha ch = true) ∧
    runPath [0x561] = runPath [0x531] :=
  ⟨by decide, (claim_no_spurious [0x561, 32]).1 ([0x561], 1) (by decide),
    by decide, by decide,
    (claim_no_spurious [0x561, 32]).2 [0x561] [0x531] (by decide) (by decide) (by decide)⟩

/-- C8: in the Go variant's input handling an unopenable input file makes the
run fail with the reported error before any processing, and the output file
(created only after processing) is not touched; a readable input is processed
normally.  The C variants never check the result of `fopen` — see the
results for the divergence. -/
theorem claim_missing_input :
    goMain Option.none = Except.error "Cannot open input file" ∧
    ∀ cs, goMain (Option.some cs) = Except.ok (freqList cs) :=
  ⟨rfl, fun _ => rfl⟩

/-- C9: the root node's counter stays 0 throughout the run (word-boundary
increments always happen at a cursor that has left the root), so no emitted
entry carries an empty word text. -/
theorem claim_root_zero_no_empty_word (cs : List Nat) :
    countAt (finalTree cs) [] = 0 ∧ ∀ e ∈ freqList cs, e.1 ≠ [] := by
  constructor
  · obtain ⟨ihp, ihw, ihc⟩ := loop_inv cs
    obtain ⟨hdone, hcur⟩ := splitRuns_facts cs
    rw [show finalTree cs = (runLoop cs).tree from rfl, ihc []]
    apply List.countP_eq_zero.mpr
    intro r hr hb
    have hrne := (hdone r hr).1
    have hlen : (runPath r).length = 6 * min MAX_WORD_SIZE r.length := length_runPath r
    have hrp : runPath r = [] := by simpa using hb
    rw [hrp] at hlen
    have hpos : 0 < r.length := List.length_pos.mpr hrne
    simp only [List.length_nil, MAX_WORD_SIZE] at hlen
    omega
  · intro e he
    have h := mem_freqList_facts cs e he
    intro hnil
    rw [hnil] at h
    simp at h

/-- C9, witness: the entry for "ա" in the output of "ա " has non-empty text. -/
theorem claim_root_zero_witness :
    (([0x561], 1) : List Nat × Nat) ∈ freqList [0x561, 32] ∧ ([0x561] : List Nat) ≠ [] :=
  ⟨by decide, (claim_root_zero_no_empty_word [0x561, 32]).2 ([0x561], 1) (by decide)⟩

/-- C10: at the end of the build phase `unique_words` equals the number of
trie nodes with a positive counter, and the collector appends exactly
`unique_words` entries, so the result-array index never exceeds the
allocation of `unique_words` entries. -/
theorem claim_unique_words (cs : List Nat) :
    (runLoop cs).uniqueWords = posNodes (finalTree cs) ∧
    (collect (finalTree cs)).length = (runLoop cs).uniqueWords := by
  have h1 := uniq_inv cs
  refine ⟨h1, ?_⟩
  rw [h1]
  exact length_process (finalTree cs) [] 0 0
